import Mathlib

/-!
Verification of the round-orchestration engine of `start_federated_server.py`
(AsyncPySyft).  Parameter tensors are embedded as lists of rationals
(element-wise arithmetic only is relevant), a model's parameter set as a list
of tensors, and the Python `dict` used by the server as an insertion-ordered
association list.  Functions are translated from the source file; the two
helpers imported from modules absent from the repository snapshot
(`average_model_parameters` from `utils.utils`, `set_model_params` from
`modules.training_plan`) are modelled from the specification and marked so.
-/

namespace FedServer

/-- One parameter tensor, flattened: an element-wise multi-dimensional array
is embedded as the list of its entries, its shape by its length. -/
abbrev Tensor := List ℚ

/-- The ordered sequence of parameter tensors of a model
(`[param.data for param in model.parameters()]`). -/
abbrev Params := List Tensor

/-- Shape profile of a parameter sequence: the length of each tensor. -/
def shapeOf (p : Params) : List ℕ := p.map List.length

/-- Aggregation-level failures named by the specification. -/
inductive AggError where
  | emptyAggregation
  | shapeMismatch
deriving DecidableEq, Repr

/-- Element-wise sum of two tensors; fails on a shape mismatch. -/
def addTensor (a b : Tensor) : Option Tensor :=
  if a.length = b.length then some (List.zipWith (fun x y => x + y) a b) else none

/-- Index-wise sum of two parameter sequences; fails on any mismatch. -/
def addParams : Params → Params → Option Params
  | [], [] => some []
  | a :: p, b :: q => do
      let c ← addTensor a b
      let r ← addParams p q
      pure (c :: r)
  | _, _ => none

/-- Sum of a non-empty list of parameter sequences; none on an empty list
or any shape mismatch. -/
def sumParams : List Params → Option Params
  | [] => none
  | [p] => some p
  | p :: q :: rest => do
      let s ← sumParams (q :: rest)
      addParams p s

/-- Modelled from the spec: `average_model_parameters` is imported from
`utils.utils`, a module not present under `src/`.  Per the Aggregator
contract, it maps the round's dictionary (worker id → updated parameter
sequence) to the unweighted element-wise arithmetic mean at each parameter
index, failing with `EmptyAggregationError` when zero workers contributed
and with `ShapeMismatchError` when tensors at an index disagree in shape. -/
def average_model_parameters (contribs : List (String × Params)) : Except AggError Params :=
  match contribs with
  | [] => .error .emptyAggregation
  | _ :: _ =>
    match sumParams (contribs.map Prod.snd) with
    | none => .error .shapeMismatch
    | some s => .ok (s.map (fun t => t.map (fun x => x / (contribs.length : ℚ))))

/-- Entry of a parameter sequence at tensor index i, element index j
(0 outside the range). -/
def entry (p : Params) (i j : ℕ) : ℚ := (p.getD i []).getD j 0

theorem getD_zipWith_add (a : Tensor) : ∀ (b : Tensor) (j : ℕ), a.length = b.length →
    (List.zipWith (fun x y => x + y) a b).getD j 0 = a.getD j 0 + b.getD j 0 := by
  induction a with
  | nil =>
    intro b j h
    cases b with
    | nil => simp
    | cons y ys => simp at h
  | cons x xs ih =>
    intro b j h
    cases b with
    | nil => simp at h
    | cons y ys =>
      cases j with
      | zero => simp
      | succ j => simpa using ih ys j (by simpa using h)

theorem addTensor_spec (a b : Tensor) (h : a.length = b.length) :
    ∃ c, addTensor a b = some c ∧ c.length = a.length ∧
      ∀ j, c.getD j 0 = a.getD j 0 + b.getD j 0 := by
  refine ⟨List.zipWith (fun x y => x + y) a b, ?_, ?_, ?_⟩
  · simp [addTensor, h]
  · simp [List.length_zipWith, h]
  · intro j
    exact getD_zipWith_add a b j h

theorem entry_nil (i j : ℕ) : entry [] i j = 0 := by
  simp [entry]

theorem entry_cons_zero (a : Tensor) (p : Params) (j : ℕ) :
    entry (a :: p) 0 j = a.getD j 0 := by
  simp [entry]

theorem entry_cons_succ (a : Tensor) (p : Params) (i j : ℕ) :
    entry (a :: p) (i + 1) j = entry p i j := by
  simp [entry]

theorem addParams_spec : ∀ (p q : Params), shapeOf p = shapeOf q →
    ∃ r, addParams p q = some r ∧ shapeOf r = shapeOf p ∧
      ∀ i j, entry r i j = entry p i j + entry q i j := by
  intro p
  induction p with
  | nil =>
    intro q h
    cases q with
    | nil => exact ⟨[], rfl, rfl, by intro i j; simp [entry_nil]⟩
    | cons b q => simp [shapeOf] at h
  | cons a p ih =>
    intro q h
    cases q with
    | nil => simp [shapeOf] at h
    | cons b q =>
      simp only [shapeOf, List.map_cons, List.cons.injEq] at h
      obtain ⟨hlen, htl⟩ := h
      obtain ⟨c, hc, hclen, hcj⟩ := addTensor_spec a b hlen
      obtain ⟨r, hr, hrsh, hrij⟩ := ih q htl
      refine ⟨c :: r, ?_, ?_, ?_⟩
      · simp [addParams, hc, hr]
      · simp only [shapeOf, List.map_cons, List.cons.injEq]
        exact ⟨hclen, hrsh⟩
      · intro i j
        cases i with
        | zero =>
          rw [entry_cons_zero, entry_cons_zero, entry_cons_zero]
          exact hcj j
        | succ i =>
          rw [entry_cons_succ, entry_cons_succ, entry_cons_succ]
          exact hrij i j

theorem sumParams_spec : ∀ (ps : List Params) (sh : List ℕ), ps ≠ [] →
    (∀ p ∈ ps, shapeOf p = sh) →
    ∃ s, sumParams ps = some s ∧ shapeOf s = sh ∧
      ∀ i j, entry s i j = (ps.map (fun p => entry p i j)).sum := by
  intro ps
  induction ps with
  | nil => intro sh h; exact absurd rfl h
  | cons p rest ih =>
    intro sh _ hsh
    cases rest with
    | nil =>
      refine ⟨p, rfl, hsh p (by simp), ?_⟩
      intro i j; simp
    | cons q rest2 =>
      obtain ⟨s, hs, hssh, hsij⟩ := ih sh (by simp) (fun r hr => hsh r (by simp [hr]))
      have hpsh : shapeOf p = shapeOf s := by
        rw [hsh p (by simp), hssh]
      obtain ⟨r, hr, hrsh, hrij⟩ := addParams_spec p s hpsh
      refine ⟨r, ?_, by rw [hrsh, hsh p (by simp)], ?_⟩
      · simp only [sumParams, hs, Option.bind_eq_bind, Option.some_bind]
        exact hr
      · intro i j
        rw [hrij i j, hsij i j]
        simp [List.sum_cons]

theorem getD_map_div (s : Params) (n : ℚ) (i j : ℕ) :
    entry (s.map (fun t => t.map (fun x => x / n))) i j = entry s i j / n := by
  unfold entry
  have h1 : (s.map (fun t => t.map (fun x => x / n))).getD i ([].map (fun x => x / n)) =
      (s.getD i []).map (fun x => x / n) := List.getD_map s [] (fun t => t.map (fun x => x / n))
  simp only [List.map_nil] at h1
  rw [h1]
  have h2 : ((s.getD i []).map (fun x => x / n)).getD j ((0 : ℚ) / n) =
      (s.getD i []).getD j 0 / n := List.getD_map (s.getD i []) 0 (fun x => x / n)
  simpa using h2

/-- C1: for every non-empty contribution map whose parameter sequences share
one shape profile, `average_model_parameters` succeeds and returns, at each
tensor index i and element index j, the unweighted arithmetic mean of the
contributing workers' entries: sum of entries divided by the worker count. -/
theorem average_model_parameters_is_mean (contribs : List (String × Params)) (sh : List ℕ)
    (hne : contribs ≠ []) (hsh : ∀ wp ∈ contribs, shapeOf wp.2 = sh) :
    ∃ r, average_model_parameters contribs = .ok r ∧ shapeOf r = sh ∧
      ∀ i j, entry r i j =
        (contribs.map (fun wp => entry wp.2 i j)).sum / (contribs.length : ℚ) := by
  obtain ⟨w, rest, rfl⟩ := List.exists_cons_of_ne_nil hne
  have hmapne : (w :: rest).map Prod.snd ≠ [] := by simp
  have hmapsh : ∀ p ∈ (w :: rest).map Prod.snd, shapeOf p = sh := by
    intro p hp
    obtain ⟨wp, hwp, rfl⟩ := List.mem_map.mp hp
    exact hsh wp hwp
  obtain ⟨s, hs, hssh, hsij⟩ := sumParams_spec ((w :: rest).map Prod.snd) sh hmapne hmapsh
  refine ⟨s.map (fun t => t.map (fun x => x / ((w :: rest).length : ℚ))), ?_, ?_, ?_⟩
  · simp only [average_model_parameters, hs]
  · rw [show shapeOf (s.map (fun t => t.map (fun x => x / ((w :: rest).length : ℚ)))) =
        shapeOf s from by simp [shapeOf, Function.comp], hssh]
  · intro i j
    rw [getD_map_div, hsij i j, List.map_map]
    rfl

/-- C1 witness: the spec's scenario — three workers returning the
single-scalar tensors [1], [2], [3] aggregate to their mean. -/
theorem average_model_parameters_is_mean_witness :
    (([(("w1" : String), ([[1]] : Params)), ("w2", [[2]]), ("w3", [[3]])] : List (String × Params)) ≠ [] ∧
      ∀ wp ∈ ([(("w1" : String), ([[1]] : Params)), ("w2", [[2]]), ("w3", [[3]])] : List (String × Params)),
        shapeOf wp.2 = [1]) ∧
    ∃ r, average_model_parameters
        [(("w1" : String), ([[1]] : Params)), ("w2", [[2]]), ("w3", [[3]])] = .ok r ∧
      shapeOf r = [1] ∧
      ∀ i j, entry r i j =
        (([(("w1" : String), ([[1]] : Params)), ("w2", [[2]]), ("w3", [[3]])].map
          (fun wp => entry wp.2 i j)).sum) / ((3 : ℕ) : ℚ) :=
  ⟨⟨by decide, by decide⟩,
    average_model_parameters_is_mean
      [("w1", [[1]]), ("w2", [[2]]), ("w3", [[3]])] [1] (by decide) (by decide)⟩

/-- C7: with zero contributing workers the aggregation fails with
`EmptyAggregationError`; by constructor disjointness it returns no
parameter set at all, degenerate or otherwise. -/
theorem average_model_parameters_empty :
    average_model_parameters [] = .error .emptyAggregation ∧
      ∀ r : Params, average_model_parameters [] ≠ .ok r := by
  constructor
  · rfl
  · intro r h
    exact Except.noConfusion h
/-- Key-membership test of the insertion-ordered association list that
embeds a Python dict (the `worker_id in dict` check implicit in `m[k] = v`). -/
def hasKey {α : Type} : List (String × α) → String → Bool
  | [], _ => false
  | kv :: m, k => if kv.1 = k then true else hasKey m k

/-- Python dict access `m[k]` (value of the unique entry for key k, found
at its insertion position). -/
def dictGet {α : Type} : List (String × α) → String → Option α
  | [], _ => none
  | kv :: m, k => if kv.1 = k then some kv.2 else dictGet m k

/-- Python dict assignment `m[k] = v` on an insertion-ordered association
list: an existing key keeps its position and receives the new value, a new
key is appended at the end. -/
def dictInsert {α : Type} (m : List (String × α)) (k : String) (v : α) : List (String × α) :=
  if hasKey m k then m.map (fun kv => if kv.1 = k then (k, v) else kv)
  else m ++ [(k, v)]

theorem dictGet_map_replace {α : Type} (k : String) (v : α) (w : String) (hw : w ≠ k) :
    ∀ m : List (String × α),
      dictGet (m.map (fun kv => if kv.1 = k then (k, v) else kv)) w = dictGet m w := by
  intro m
  induction m with
  | nil => rfl
  | cons kv m ih =>
    by_cases hk : kv.1 = k
    · simp [dictGet, hk, Ne.symm hw, ih]
    · have hhead : (fun kv : String × α => if kv.1 = k then (k, v) else kv) kv = kv := by
        simp [hk]
      simp only [List.map_cons, hhead]
      by_cases hkw : kv.1 = w
      · simp [dictGet, hkw]
      · simp [dictGet, hkw, ih]

theorem dictGet_map_replace_hit {α : Type} (k : String) (v : α) :
    ∀ m : List (String × α), hasKey m k = true →
      dictGet (m.map (fun kv => if kv.1 = k then (k, v) else kv)) k = some v := by
  intro m
  induction m with
  | nil => intro h; simp [hasKey] at h
  | cons kv m ih =>
    intro h
    by_cases hk : kv.1 = k
    · simp [dictGet, hk]
    · simp only [hasKey, if_neg hk] at h
      simp [dictGet, hk, ih h]

theorem dictGet_append_single {α : Type} (k : String) (v : α) (w : String) (hw : w ≠ k) :
    ∀ m : List (String × α), dictGet (m ++ [(k, v)]) w = dictGet m w := by
  intro m
  induction m with
  | nil => simp [dictGet, Ne.symm hw]
  | cons kv m ih =>
    by_cases hkw : kv.1 = w
    · simp [dictGet, hkw]
    · simp [dictGet, hkw, ih]

theorem dictGet_append_single_hit {α : Type} (k : String) (v : α) :
    ∀ m : List (String × α), hasKey m k = false →
      dictGet (m ++ [(k, v)]) k = some v := by
  intro m
  induction m with
  | nil => simp [dictGet]
  | cons kv m ih =>
    intro h
    simp only [hasKey] at h
    by_cases hk : kv.1 = k
    · simp [hk] at h
    · simp only [if_neg hk] at h
      simp [dictGet, hk, ih h]

theorem dictGet_dictInsert {α : Type} (m : List (String × α)) (k : String) (v : α) (w : String) :
    dictGet (dictInsert m k v) w = if w = k then some v else dictGet m w := by
  unfold dictInsert
  by_cases hw : w = k
  · subst hw
    cases hany : hasKey m w with
    | true => simp [dictGet_map_replace_hit w v m hany]
    | false => simp [dictGet_append_single_hit w v m hany]
  · cases hany : hasKey m k with
    | true => simp [dictGet_map_replace k v w hw m, hw]
    | false => simp [dictGet_append_single k v w hw m, hw]

theorem keys_dictInsert {α : Type} (m : List (String × α)) (k : String) (v : α) :
    (dictInsert m k v).map Prod.fst =
      if hasKey m k then m.map Prod.fst else m.map Prod.fst ++ [k] := by
  unfold dictInsert
  cases hany : hasKey m k with
  | true =>
    simp only [if_true]
    rw [List.map_map]
    apply List.map_congr_left
    intro kv _
    by_cases hk : kv.1 = k
    · simp [hk]
    · simp [hk]
  | false => simp

theorem hasKey_iff_mem_keys {α : Type} (k : String) :
    ∀ m : List (String × α), hasKey m k = true ↔ k ∈ m.map Prod.fst := by
  intro m
  induction m with
  | nil => simp [hasKey]
  | cons kv m ih =>
    by_cases hk : kv.1 = k
    · simp [hasKey, hk]
    · simp [hasKey, hk, ih, Ne.symm hk]

theorem nodupKeys_dictInsert {α : Type} (m : List (String × α)) (k : String) (v : α)
    (h : (m.map Prod.fst).Nodup) : ((dictInsert m k v).map Prod.fst).Nodup := by
  rw [keys_dictInsert]
  cases hany : hasKey m k with
  | true => simpa using h
  | false =>
    simp only [Bool.false_eq_true, if_false]
    rw [List.nodup_append]
    refine ⟨h, List.nodup_singleton k, ?_⟩
    intro x hx hxk
    simp only [List.mem_singleton] at hxk
    subst hxk
    rw [← hasKey_iff_mem_keys] at hx
    rw [hany] at hx
    exact Bool.false_ne_true hx

/-- One element of the list returned by asyncio.gather in training_handler:
the triple (worker_id, loss, updated_parameter) from fit_model_on_worker. -/
abbrev WorkerResult := String × ℚ × Params

/-- The fold in training_handler that builds upd_wrkr_params: starting from
the empty dict, for each (worker_id, worker_loss, worker_model) in results,
assign upd_wrkr_params[worker_id] = worker_model. -/
def buildUpdParams (results : List WorkerResult) : List (String × Params) :=
  results.foldl (fun m r => dictInsert m r.1 r.2.2) []

theorem buildUpd_go_dictGet (w : String) :
    ∀ (rs : List WorkerResult) (m : List (String × Params)),
      dictGet (rs.foldl (fun m r => dictInsert m r.1 r.2.2) m) w =
        ((rs.reverse.find? (fun r => r.1 = w)).map (fun r => r.2.2)).or (dictGet m w) := by
  intro rs
  induction rs with
  | nil => intro m; simp
  | cons r rs ih =>
    intro m
    rw [List.foldl_cons, ih (dictInsert m r.1 r.2.2), List.reverse_cons, List.find?_append,
      dictGet_dictInsert m r.1 r.2.2 w]
    cases hfind : rs.reverse.find? (fun x => decide (x.1 = w)) with
    | some x => simp [hfind, Option.or]
    | none =>
      by_cases hw : w = r.1
      · simp [hfind, List.find?, hw, Option.or]
      · simp [hfind, List.find?, Ne.symm hw, hw, Option.or]

theorem buildUpd_go_nodup :
    ∀ (rs : List WorkerResult) (m : List (String × Params)),
      (m.map Prod.fst).Nodup →
      ((rs.foldl (fun m r => dictInsert m r.1 r.2.2) m).map Prod.fst).Nodup := by
  intro rs
  induction rs with
  | nil => intro m h; exact h
  | cons r rs ih =>
    intro m h
    exact ih (dictInsert m r.1 r.2.2) (nodupKeys_dictInsert m r.1 r.2.2 h)

theorem buildUpd_go_keys_sub (x : String) :
    ∀ (rs : List WorkerResult) (m : List (String × Params)),
      x ∈ (rs.foldl (fun m r => dictInsert m r.1 r.2.2) m).map Prod.fst →
      x ∈ m.map Prod.fst ∨ x ∈ rs.map (fun r => r.1) := by
  intro rs
  induction rs with
  | nil => intro m h; exact Or.inl h
  | cons r rs ih =>
    intro m h
    rcases ih (dictInsert m r.1 r.2.2) h with h1 | h1
    · rw [keys_dictInsert] at h1
      cases hany : hasKey m r.1 with
      | true =>
        rw [hany] at h1
        simp only [if_true] at h1
        exact Or.inl h1
      | false =>
        rw [hany] at h1
        simp only [Bool.false_eq_true, if_false, List.mem_append, List.mem_singleton] at h1
        rcases h1 with h1 | h1
        · exact Or.inl h1
        · exact Or.inr (by simp [h1])
    · exact Or.inr (by simp [h1])

/-- C10: the per-worker results are folded into the round's mapping with
last-writer-wins semantics — the mapping's keys are duplicate-free (at most
one contribution per distinct worker id reaches aggregation), and the value
kept for an id is the parameter sequence of the last result entry carrying
that id (results arrive in roster order, so the later roster entry wins). -/
theorem buildUpdParams_last_writer_wins (results : List WorkerResult) (w : String) :
    ((buildUpdParams results).map Prod.fst).Nodup ∧
    dictGet (buildUpdParams results) w =
      (results.reverse.find? (fun r => r.1 = w)).map (fun r => r.2.2) := by
  constructor
  · exact buildUpd_go_nodup results [] (by simp)
  · rw [buildUpdParams, buildUpd_go_dictGet w results []]
    simp [dictGet]

/-- The three values connection_handler receives over a freshly accepted
websocket connection before it appends to WORKER_LIST (worker id, host,
port); the FederatedServer client object is proxied by this identifying
data. -/
structure RegEvent where
  wid : String
  host : String
  port : ℕ
deriving DecidableEq, Repr

/-- connection_handler's effect on the shared WORKER_LIST: unconditionally
append the new client entry — no duplicate check and no error path. -/
def connection_handler (registry : List RegEvent) (e : RegEvent) : List RegEvent :=
  registry ++ [e]

/-- Contents of WORKER_LIST after a stream of registration events has been
handled, starting from the empty list the module initializes. -/
def registryAfter (es : List RegEvent) : List RegEvent :=
  es.foldl connection_handler []

/-- The roster snapshot taken at the top of a round:
sampled_workers = [worker[0] for worker in WORKER_LIST], clients by id. -/
def sampled_workers (registry : List RegEvent) : List String :=
  registry.map RegEvent.wid

theorem foldl_connection_handler : ∀ (es : List RegEvent) (acc : List RegEvent),
    es.foldl connection_handler acc = acc ++ es := by
  intro es
  induction es with
  | nil => intro acc; simp
  | cons e es ih =>
    intro acc
    rw [List.foldl_cons, ih (connection_handler acc e), connection_handler, List.append_assoc]
    rfl

theorem registryAfter_eq (es : List RegEvent) : registryAfter es = es := by
  rw [registryAfter, foldl_connection_handler es []]
  rfl

/-- C5: a worker whose registration lands in WORKER_LIST only after round
k's roster snapshot was taken is absent from that snapshot and from round
k's result mapping, while — the registration having completed before round
k+1's snapshot — it is present in round k+1's roster. -/
theorem late_registration_excluded (early mid : List RegEvent) (e : RegEvent)
    (train : String → ℚ × Params)
    (hearly : ∀ ev ∈ early, ev.wid ≠ e.wid) (hmid : e ∈ mid) :
    e.wid ∉ sampled_workers (registryAfter early) ∧
    e.wid ∉ (buildUpdParams ((sampled_workers (registryAfter early)).map
        (fun w => (w, train w)))).map Prod.fst ∧
    e.wid ∈ sampled_workers (registryAfter (early ++ mid)) := by
  have hnot : e.wid ∉ sampled_workers (registryAfter early) := by
    rw [registryAfter_eq, sampled_workers]
    intro hmem
    obtain ⟨ev, hev, hwid⟩ := List.mem_map.mp hmem
    exact hearly ev hev hwid
  refine ⟨hnot, ?_, ?_⟩
  · intro hkey
    rcases buildUpd_go_keys_sub e.wid
        ((sampled_workers (registryAfter early)).map (fun w => (w, train w))) [] hkey with h | h
    · simp at h
    · rw [List.map_map] at h
      apply hnot
      simpa using h
  · rw [registryAfter_eq, sampled_workers]
    exact List.mem_map.mpr ⟨e, List.mem_append.mpr (Or.inr hmid), rfl⟩

/-- C5 witness: worker w2 registers between the first and the second
snapshot; it is missing from the first round's roster and results and
present in the second round's roster. -/
theorem late_registration_excluded_witness :
    ((∀ ev ∈ [RegEvent.mk "w1" "localhost" 9001], ev.wid ≠ "w2") ∧
      RegEvent.mk "w2" "localhost" 9002 ∈ [RegEvent.mk "w2" "localhost" 9002]) ∧
    ("w2" ∉ sampled_workers (registryAfter [RegEvent.mk "w1" "localhost" 9001]) ∧
      "w2" ∉ (buildUpdParams ((sampled_workers (registryAfter [RegEvent.mk "w1" "localhost" 9001])).map
          (fun w => (w, ((0 : ℚ), ([] : Params)))))).map Prod.fst ∧
      "w2" ∈ sampled_workers (registryAfter
        ([RegEvent.mk "w1" "localhost" 9001] ++ [RegEvent.mk "w2" "localhost" 9002]))) :=
  ⟨⟨by decide, by decide⟩,
    late_registration_excluded [RegEvent.mk "w1" "localhost" 9001]
      [RegEvent.mk "w2" "localhost" 9002] (RegEvent.mk "w2" "localhost" 9002)
      (fun _ => ((0 : ℚ), ([] : Params))) (by decide) (by decide)⟩

/-- C6 counterexample: a second registration event carrying the already
present worker id "w1" does not fail — connection_handler stores a second
entry for that id, so WORKER_LIST ends holding the id twice. -/
theorem connection_handler_duplicate_counterexample :
    (connection_handler (connection_handler [] (RegEvent.mk "w1" "localhost" 9001))
        (RegEvent.mk "w1" "localhost" 9001)).map RegEvent.wid = ["w1", "w1"] := by
  decide

/-- C6 (amended): connection_handler never rejects a duplicate id — it
appends unconditionally, so a registration whose id is already present
grows the registry by one more entry carrying that very id. -/
theorem connection_handler_appends_duplicates (registry : List RegEvent) (e : RegEvent) :
    (connection_handler registry e).length = registry.length + 1 ∧
    ((connection_handler registry e).filter (fun x => x.wid = e.wid)).length =
      ((registry.filter (fun x => x.wid = e.wid)).length) + 1 := by
  constructor
  · simp [connection_handler]
  · rw [connection_handler, List.filter_append]
    simp

/-- Values stored in the kwargs training-configuration dictionary. -/
inductive ConfigVal where
  | str (s : String)
  | num (q : ℚ)
  | nat (n : ℕ)
  | bool (b : Bool)
deriving DecidableEq, Repr

/-- Constants read from configs.globals when the kwargs dictionary is built;
their concrete values live in configs/globals.py, so they stay abstract. -/
structure Globals where
  PLAN_ID : String
  MODEL : String
  MODEL_PARAM_ID : String
  INITIAL_LR : ℚ
  BATCH_SIZE : ℕ
  RANDOM_SAMPLE_BATCHES : Bool
  MAX_NR_BATCHES : ℕ
  DATASET_ID : String
  NUM_EPOCHS : ℕ
deriving DecidableEq, Repr

/-- build_training_configurations: the kwargs dictionary created once at the
start of training_handler, its nine keys in insertion order. -/
def build_training_configurations (glb : Globals) : List (String × ConfigVal) :=
  [("plan_id", .str glb.PLAN_ID),
   ("model_id", .str glb.MODEL),
   ("model_param_id", .str glb.MODEL_PARAM_ID),
   ("lr", .num glb.INITIAL_LR),
   ("batch_size", .nat glb.BATCH_SIZE),
   ("random_sample", .bool glb.RANDOM_SAMPLE_BATCHES),
   ("max_nr_batches", .nat glb.MAX_NR_BATCHES),
   ("dataset_key", .str glb.DATASET_ID),
   ("epochs", .nat glb.NUM_EPOCHS)]

/-- The dictionary mutation fit_model_on_worker performs on the shared
kwargs: kwargs["model_tensor_count"] = len(model_params). -/
def set_model_tensor_count (kwargs : List (String × ConfigVal)) (n : ℕ) :
    List (String × ConfigVal) :=
  dictInsert kwargs "model_tensor_count" (.nat n)

/-- Representative concrete instantiation of the configs.globals constants,
used to evaluate the embedded handlers on closed inputs. -/
def sampleGlobals : Globals :=
  ⟨"plan", "model", "model_param", 1 / 10, 32, false, 10, "mnist", 3⟩

/-- C9 counterexample: the very first per-worker call already changes the
kwargs dictionary built at the start of the run — it adds the
model_tensor_count field, absent at construction. -/
theorem training_config_mutated_counterexample :
    set_model_tensor_count (build_training_configurations sampleGlobals) 2 ≠
      build_training_configurations sampleGlobals ∧
    dictGet (build_training_configurations sampleGlobals) "model_tensor_count" = none ∧
    dictGet (set_model_tensor_count (build_training_configurations sampleGlobals) 2)
      "model_tensor_count" = some (.nat 2) := by
  refine ⟨?_, by decide, by decide⟩
  intro h
  have := congrArg List.length h
  simp [set_model_tensor_count, build_training_configurations, dictInsert, hasKey] at this

/-- C9 (amended): each per-worker call mutates exactly one field of the
run-wide kwargs dictionary — it sets model_tensor_count (absent at
construction) to the count of parameter tensors pushed; the nine fields
written by build_training_configurations keep their values. -/
theorem training_config_only_tensor_count_changes (glb : Globals) (n : ℕ) (k : String) :
    (k ≠ "model_tensor_count" →
      dictGet (set_model_tensor_count (build_training_configurations glb) n) k =
        dictGet (build_training_configurations glb) k) ∧
    dictGet (set_model_tensor_count (build_training_configurations glb) n)
      "model_tensor_count" = some (.nat n) ∧
    dictGet (build_training_configurations glb) "model_tensor_count" = none := by
  refine ⟨?_, ?_, ?_⟩
  · intro hk
    rw [set_model_tensor_count, dictGet_dictInsert]
    simp [hk]
  · rw [set_model_tensor_count, dictGet_dictInsert]
    simp
  · simp [build_training_configurations, dictGet]

/-- C9 witness: with the sample globals, pushing two tensors leaves the lr
field of the kwargs dictionary untouched. -/
theorem training_config_only_tensor_count_changes_witness :
    ("lr" : String) ≠ "model_tensor_count" ∧
    dictGet (set_model_tensor_count (build_training_configurations sampleGlobals) 2) "lr" =
      dictGet (build_training_configurations sampleGlobals) "lr" :=
  ⟨by decide,
    (training_config_only_tensor_count_changes sampleGlobals 2 "lr").1 (by decide)⟩

/-- Decimal rendering of a natural number, as Python's str(idx) inside the
label format string: digit characters, most significant first.  The fuel
argument makes the recursion structural; fuel n+1 always suffices. -/
def decChars : ℕ → ℕ → List Char
  | 0, _ => []
  | fuel + 1, n =>
    if n < 10 then [Nat.digitChar n]
    else decChars fuel (n / 10) ++ [Nat.digitChar (n % 10)]

/-- Python's str(n) for a natural number n. -/
def natDecimal (n : ℕ) : String := ⟨decChars (n + 1) n⟩

/-- The label fit_model_on_worker assigns to the tensor at position idx
before sending it: kwargs["model_param_id"] + "_" + worker.id + "_" +
str(idx). -/
def param_label (model_param_id wid : String) (idx : ℕ) : String :=
  model_param_id ++ "_" ++ wid ++ "_" ++ natDecimal idx

theorem digitChar_ne_underscore (m : ℕ) (h : m < 10) : Nat.digitChar m ≠ '_' := by
  interval_cases m <;> decide

theorem decChars_no_underscore : ∀ (fuel n : ℕ), '_' ∉ decChars fuel n := by
  intro fuel
  induction fuel with
  | zero => intro n h; simp [decChars] at h
  | succ fuel ih =>
    intro n
    rw [decChars]
    by_cases h : n < 10
    · rw [if_pos h]
      intro hmem
      exact digitChar_ne_underscore n h (List.mem_singleton.mp hmem).symm
    · rw [if_neg h]
      intro hmem
      rcases List.mem_append.mp hmem with h1 | h1
      · exact ih (n / 10) h1
      · exact digitChar_ne_underscore (n % 10) (Nat.mod_lt _ (by omega)) (List.mem_singleton.mp h1).symm

/-- Decimal parser, the left inverse of decChars used to prove that str is
injective on naturals. -/
def parseDec (l : List Char) : ℕ := l.foldl (fun acc c => 10 * acc + (c.toNat - 48)) 0

theorem digitChar_toNat (m : ℕ) (h : m < 10) : (Nat.digitChar m).toNat - 48 = m := by
  interval_cases m <;> decide

theorem parseDec_decChars : ∀ (fuel n : ℕ), n ≤ fuel → parseDec (decChars (fuel + 1) n) = n := by
  intro fuel
  induction fuel with
  | zero =>
    intro n hn
    have h0 : n = 0 := by omega
    subst h0
    decide
  | succ fuel ih =>
    intro n hn
    rw [decChars]
    by_cases h : n < 10
    · rw [if_pos h]
      simp [parseDec, List.foldl, digitChar_toNat n h]
    · rw [if_neg h]
      have hlt : n / 10 < n := Nat.div_lt_self (by omega) (by omega)
      have hdiv : n / 10 ≤ fuel := by omega
      rw [parseDec, List.foldl_append]
      have hin := ih (n / 10) hdiv
      rw [parseDec] at hin
      rw [hin]
      simp only [List.foldl]
      rw [digitChar_toNat _ (Nat.mod_lt _ (by omega))]
      omega

theorem natDecimal_injective (m n : ℕ) (h : natDecimal m = natDecimal n) : m = n := by
  have hdata : decChars (m + 1) m = decChars (n + 1) n := congrArg String.data h
  have hm := parseDec_decChars m m (le_refl m)
  have hn := parseDec_decChars n n (le_refl n)
  rw [← hm, ← hn, hdata]

theorem append_underscore_cancel :
    ∀ (a1 b1 a2 b2 : List Char), '_' ∉ b1 → '_' ∉ b2 →
      a1 ++ '_' :: b1 = a2 ++ '_' :: b2 → a1 = a2 ∧ b1 = b2 := by
  intro a1
  induction a1 with
  | nil =>
    intro b1 a2 b2 hb1 hb2 h
    cases a2 with
    | nil => simpa using h
    | cons c a2 =>
      simp only [List.nil_append, List.cons_append, List.cons.injEq] at h
      exfalso
      apply hb1
      rw [h.2]
      exact List.mem_append.mpr (Or.inr (List.mem_cons_self _ _))
  | cons c a1 ih =>
    intro b1 a2 b2 hb1 hb2 h
    cases a2 with
    | nil =>
      simp only [List.cons_append, List.nil_append, List.cons.injEq] at h
      exfalso
      apply hb2
      rw [← h.2]
      exact List.mem_append.mpr (Or.inr (List.mem_cons_self _ _))
    | cons d a2 =>
      simp only [List.cons_append, List.cons.injEq] at h
      obtain ⟨ha, hb⟩ := ih b1 a2 b2 hb1 hb2 h.2
      exact ⟨by rw [h.1, ha], hb⟩

theorem param_label_data (model_param_id wid : String) (idx : ℕ) :
    (param_label model_param_id wid idx).data =
      model_param_id.data ++ '_' :: (wid.data ++ '_' :: decChars (idx + 1) idx) := by
  have hu : ("_" : String).data = ['_'] := rfl
  have hn : (natDecimal idx).data = decChars (idx + 1) idx := rfl
  simp [param_label, String.data_append, hu, hn]

theorem param_label_injective (model_param_id w1 w2 : String) (i1 i2 : ℕ)
    (h : param_label model_param_id w1 i1 = param_label model_param_id w2 i2) :
    w1 = w2 ∧ i1 = i2 := by
  have hd := congrArg String.data h
  rw [param_label_data, param_label_data] at hd
  have hd2 := List.append_cancel_left hd
  injection hd2 with hd3 hd4
  obtain ⟨hw, hnd⟩ := append_underscore_cancel w1.data (decChars (i1 + 1) i1) w2.data
    (decChars (i2 + 1) i2) (decChars_no_underscore _ _) (decChars_no_underscore _ _) hd4
  refine ⟨String.ext hw, natDecimal_injective i1 i2 (String.ext ?_)⟩
  exact hnd

theorem intercalate_three (a b c : String) :
    String.intercalate "_" [a, b, c] = a ++ "_" ++ b ++ "_" ++ c := by
  simp [String.intercalate, String.intercalate.go, String.append_assoc]

/-- One remote operation issued by fit_model_on_worker, in source order:
clear_objects_remote; one send per enumerated parameter tensor (tagged with
its label); set_train_config carrying model_tensor_count; the train-plan
copy send; async_fit; the await of the returned loss; one ptr.get() per
stored handle (proxied by the handle's label). -/
inductive Step where
  | reset
  | pushParam (label : String)
  | pushConfig (tensorCount : ℕ)
  | pushPlan
  | invokeTraining (datasetKey : String) (epoch : ℕ)
  | awaitLoss
  | fetchParam (label : String)
deriving DecidableEq, Repr

/-- The enumerate loop of fit_model_on_worker sending model parameters,
starting at index idx: the steps it issues and the model_ptrs handles it
accumulates, each handle proxied by the label put on the sent tensor. -/
def send_model_params (model_param_id wid : String) : ℕ → List Tensor → List Step × List String
  | _, [] => ([], [])
  | idx, _ :: rest =>
    (Step.pushParam (param_label model_param_id wid idx) ::
        (send_model_params model_param_id wid (idx + 1) rest).1,
      param_label model_param_id wid idx ::
        (send_model_params model_param_id wid (idx + 1) rest).2)

/-- The ordered sequence of remote operations one fit_model_on_worker call
performs. -/
def fit_model_on_worker_steps (wid : String) (model_params : List Tensor)
    (model_param_id dataset_key : String) (epoch : ℕ) : List Step :=
  Step.reset ::
    ((send_model_params model_param_id wid 0 model_params).1 ++
      Step.pushConfig model_params.length :: Step.pushPlan ::
      Step.invokeTraining dataset_key epoch :: Step.awaitLoss ::
      (send_model_params model_param_id wid 0 model_params).2.map Step.fetchParam)

/-- The per-worker sequences one round of training_handler issues: one
fit_model_on_worker call per sampled worker. -/
def round_worker_steps (roster : List String) (model_params : List Tensor)
    (model_param_id dataset_key : String) (epoch : ℕ) : List (String × List Step) :=
  roster.map (fun w =>
    (w, fit_model_on_worker_steps w model_params model_param_id dataset_key epoch))

theorem send_model_params_eq (model_param_id wid : String) :
    ∀ (ps : List Tensor) (k : ℕ),
      send_model_params model_param_id wid k ps =
        ((List.range ps.length).map
            (fun i => Step.pushParam (param_label model_param_id wid (k + i))),
          (List.range ps.length).map (fun i => param_label model_param_id wid (k + i))) := by
  intro ps
  induction ps with
  | nil => intro k; rfl
  | cons t ps ih =>
    intro k
    rw [send_model_params, ih (k + 1)]
    have harg : ∀ i : ℕ, k + 1 + i = k + (i + 1) := by omega
    simp only [List.length_cons, List.range_succ_eq_map, List.map_cons, List.map_map,
      Nat.add_zero, Prod.mk.injEq]
    constructor
    · congr 1
      apply List.map_congr_left
      intro i _
      simp [Function.comp, harg i]
    · congr 1
      apply List.map_congr_left
      intro i _
      simp [Function.comp, harg i]

/-- C3: a round issues exactly one per-worker sequence per roster entry (K
sequences for a roster of size K, in roster order), and every issued
sequence is strictly ordered: remote-state reset, then one parameter push
per tensor (zero-based labels in order), then the config push carrying the
count of parameters just pushed, then the plan push, then the training
invocation, then the await of the loss, then one retrieval per pushed
handle. -/
theorem round_issues_ordered_sequences (roster : List String) (model_params : List Tensor)
    (model_param_id dataset_key : String) (epoch : ℕ) :
    (round_worker_steps roster model_params model_param_id dataset_key epoch).length =
      roster.length ∧
    (round_worker_steps roster model_params model_param_id dataset_key epoch).map Prod.fst =
      roster ∧
    ∀ p ∈ round_worker_steps roster model_params model_param_id dataset_key epoch,
      p.2 = Step.reset ::
        ((List.range model_params.length).map
            (fun i => Step.pushParam (param_label model_param_id p.1 i)) ++
          Step.pushConfig model_params.length :: Step.pushPlan ::
          Step.invokeTraining dataset_key epoch :: Step.awaitLoss ::
          (List.range model_params.length).map
            (fun i => Step.fetchParam (param_label model_param_id p.1 i))) := by
  refine ⟨?_, ?_, ?_⟩
  · simp [round_worker_steps]
  · simp [round_worker_steps, List.map_map, Function.comp_def]
  · intro p hp
    obtain ⟨w, hw, rfl⟩ := List.mem_map.mp hp
    simp only [fit_model_on_worker_steps, send_model_params_eq model_param_id w model_params 0,
      List.map_map, Nat.zero_add]
    rfl

/-- C3 witness: a one-worker roster with two tensors issues exactly the
ordered sequence for that worker. -/
theorem round_issues_ordered_sequences_witness :
    (("wA", fit_model_on_worker_steps "wA" [[1], [2, 3]] "model_param" "mnist" 0) ∈
      round_worker_steps ["wA"] [[1], [2, 3]] "model_param" "mnist" 0) ∧
    ("wA", fit_model_on_worker_steps "wA" [[1], [2, 3]] "model_param" "mnist" 0).2 =
      Step.reset ::
        ((List.range ([[1], [2, 3]] : List Tensor).length).map
            (fun i => Step.pushParam (param_label "model_param" "wA" i)) ++
          Step.pushConfig ([[1], [2, 3]] : List Tensor).length :: Step.pushPlan ::
          Step.invokeTraining "mnist" 0 :: Step.awaitLoss ::
          (List.range ([[1], [2, 3]] : List Tensor).length).map
            (fun i => Step.fetchParam (param_label "model_param" "wA" i))) :=
  ⟨by decide,
    (round_issues_ordered_sequences ["wA"] [[1], [2, 3]] "model_param" "mnist" 0).2.2
      ("wA", fit_model_on_worker_steps "wA" [[1], [2, 3]] "model_param" "mnist" 0) (by decide)⟩

/-- C8: the handles pushed for a worker carry exactly the labels built from
the model_param_id, the worker id and the zero-based decimal index joined
by underscores, in push order; the label map is injective in (worker id,
index) for a fixed shared model_param_id, so labels are unique per worker
across concurrently connected workers. -/
theorem param_label_format_and_unique (model_param_id wid w1 w2 : String)
    (ps : List Tensor) (i1 i2 idx : ℕ) :
    (send_model_params model_param_id wid 0 ps).2 =
      (List.range ps.length).map (fun i => param_label model_param_id wid i) ∧
    param_label model_param_id wid idx =
      String.intercalate "_" [model_param_id, wid, natDecimal idx] ∧
    (param_label model_param_id w1 i1 = param_label model_param_id w2 i2 →
      w1 = w2 ∧ i1 = i2) := by
  refine ⟨?_, ?_, param_label_injective model_param_id w1 w2 i1 i2⟩
  · rw [send_model_params_eq]
    simp only [Nat.zero_add]
  · rw [intercalate_three]
    rfl

/-- C8 witness: instance of the label theorem at concrete worker and index,
antecedent of the injectivity implication discharged at equal inputs. -/
theorem param_label_format_and_unique_witness :
    param_label "model_param" "wA" 5 = param_label "model_param" "wA" 5 ∧
    (("wA" : String) = "wA" ∧ (5 : ℕ) = 5) ∧
    param_label "model_param" "wA" 5 =
      String.intercalate "_" ["model_param", "wA", natDecimal 5] :=
  ⟨rfl,
    (param_label_format_and_unique "model_param" "wA" "wA" "wA" [] 5 5 5).2.2 rfl,
    (param_label_format_and_unique "model_param" "wA" "wA" "wA" [] 5 5 5).2.1⟩

/-- Transport/session-level failure one of the per-worker remote steps can
raise while a round is in flight (the spec's WorkerUnavailableError),
tagged with the failing worker's id. -/
inductive WorkerUnavailableError where
  | unavailable (wid : String)
deriving DecidableEq, Repr

/-- The fan-out awaited in training_handler: asyncio.gather over one
fit_model_on_worker task per sampled worker, in roster order, with no
return_exceptions flag and no try/except around any task — the await
yields the list of all per-worker results only when every task succeeds,
and re-raises a failing task's exception otherwise.  The network behavior
of one worker's whole step sequence is abstracted by fit. -/
def gather_fit_results (roster : List String)
    (fit : String → Except WorkerUnavailableError WorkerResult) :
    Except WorkerUnavailableError (List WorkerResult) :=
  roster.mapM fit

/-- C2, evaluated at the claim's scenario: with three sampled workers of
which w2 raises WorkerUnavailableError during its training step, the round
body receives no result list at all — the error propagates out of the
gather and nothing reaches aggregation — instead of a result set
containing the two healthy workers. -/
theorem gather_aborts_round_on_one_failure :
    gather_fit_results ["w1", "w2", "w3"]
      (fun w => if w = "w2" then Except.error (WorkerUnavailableError.unavailable "w2")
        else Except.ok (w, (0 : ℚ), ([[1]] : Params))) =
      Except.error (WorkerUnavailableError.unavailable "w2") := by
  rfl

/-- Modelled from the spec: set_model_params (imported from
modules.training_plan, a module not present under src/) unpacks the
aggregated parameter sequence into the local model in place; with the
global model embedded as its parameter list, the model state after the
call is exactly the aggregated sequence. -/
def set_model_params (_model : Params) (param_avg : Params) : Params := param_avg

/-- One iteration of the training_handler epoch loop, as recorded state:
the model_params snapshot extracted at round start, the parameters handed
to each fit_model_on_worker call, the gathered per-worker results, and the
model parameters left after set_model_params (none when aggregation
raised, which ends the loop). -/
structure RoundTrace where
  snapshot : Params
  sent : List (String × Params)
  results : List WorkerResult
  applied : Option Params
deriving DecidableEq, Repr

/-- The training_handler round loop over the remaining epochs: extract
model_params from the model, fan fit_model_on_worker out over the sampled
workers, fold the results into upd_wrkr_params, average them, and unpack
the average into the model read by the next iteration.  The remote
training behavior is abstracted by train, mapping (epoch, worker id,
received parameters) to that worker's reported (loss, updated
parameters). -/
def training_handler_rounds (roster : List String)
    (train : ℕ → String → Params → ℚ × Params) : ℕ → ℕ → Params → List RoundTrace
  | 0, _, _ => []
  | n + 1, epoch, model_params =>
    match average_model_parameters
        (buildUpdParams (roster.map (fun w => (w, train epoch w model_params)))) with
    | .error _ =>
      [⟨model_params, roster.map (fun w => (w, model_params)),
        roster.map (fun w => (w, train epoch w model_params)), none⟩]
    | .ok param_avg =>
      ⟨model_params, roster.map (fun w => (w, model_params)),
        roster.map (fun w => (w, train epoch w model_params)),
        some (set_model_params model_params param_avg)⟩ ::
        training_handler_rounds roster train n (epoch + 1)
          (set_model_params model_params param_avg)

theorem training_handler_rounds_succ (roster : List String)
    (train : ℕ → String → Params → ℚ × Params) (n epoch : ℕ) (p : Params) :
    ∃ head tail, training_handler_rounds roster train (n + 1) epoch p = head :: tail ∧
      head.snapshot = p ∧
      head.sent = roster.map (fun w => (w, p)) ∧
      ((head.applied = none ∧ tail = []) ∨
        (∃ p2, head.applied = some p2 ∧
          tail = training_handler_rounds roster train n (epoch + 1) p2)) := by
  rw [training_handler_rounds]
  split
  · exact ⟨_, _, rfl, rfl, rfl, Or.inl ⟨rfl, rfl⟩⟩
  · rename_i param_avg havg
    exact ⟨_, _, rfl, rfl, rfl, Or.inr ⟨set_model_params p param_avg, rfl, rfl⟩⟩

theorem training_handler_rounds_head_snapshot (roster : List String)
    (train : ℕ → String → Params → ℚ × Params) :
    ∀ (n epoch : ℕ) (p : Params) (rec : RoundTrace),
      (training_handler_rounds roster train n epoch p)[0]? = some rec → rec.snapshot = p := by
  intro n
  cases n with
  | zero => intro epoch p rec h; simp [training_handler_rounds] at h
  | succ n =>
    intro epoch p rec h
    obtain ⟨head, tail, heq, hsnap, hsent, hcase⟩ :=
      training_handler_rounds_succ roster train n epoch p
    rw [heq, List.getElem?_cons_zero] at h
    injection h with h
    rw [← h, hsnap]

/-- C4: rounds are strictly sequential and share one snapshot per round —
a (k+1)-th round record exists only bearing as its snapshot exactly the
model state some round k's aggregation-and-update produced (rec.applied),
and every worker inside one round is handed precisely that round's
snapshot. -/
theorem rounds_sequential_snapshot (roster : List String)
    (train : ℕ → String → Params → ℚ × Params) :
    ∀ (n epoch : ℕ) (p : Params),
    (∀ (k : ℕ) (rec rec2 : RoundTrace),
      (training_handler_rounds roster train n epoch p)[k]? = some rec →
      (training_handler_rounds roster train n epoch p)[k + 1]? = some rec2 →
      rec.applied = some rec2.snapshot) ∧
    (∀ rec ∈ training_handler_rounds roster train n epoch p,
      ∀ wp ∈ rec.sent, wp.2 = rec.snapshot) := by
  intro n
  induction n with
  | zero =>
    intro epoch p
    constructor
    · intro k rec rec2 h1 h2
      simp [training_handler_rounds] at h1
    · intro rec h
      simp [training_handler_rounds] at h
  | succ n ih =>
    intro epoch p
    obtain ⟨head, tail, heq, hsnap, hsent, hcase⟩ :=
      training_handler_rounds_succ roster train n epoch p
    constructor
    · intro k rec rec2 h1 h2
      rw [heq] at h1 h2
      cases k with
      | zero =>
        rw [List.getElem?_cons_zero] at h1
        rw [List.getElem?_cons_succ] at h2
        injection h1 with h1
        rcases hcase with ⟨hnone, htail⟩ | ⟨p2, happ, htail⟩
        · rw [htail] at h2
          simp at h2
        · rw [htail] at h2
          have hs2 := training_handler_rounds_head_snapshot roster train n (epoch + 1) p2 rec2 h2
          rw [← h1, happ, hs2]
      | succ k =>
        rw [List.getElem?_cons_succ] at h1 h2
        rcases hcase with ⟨hnone, htail⟩ | ⟨p2, happ, htail⟩
        · rw [htail] at h1
          simp at h1
        · rw [htail] at h1 h2
          exact (ih (epoch + 1) p2).1 k rec rec2 h1 h2
    · intro rec hrec wp hwp
      rw [heq] at hrec
      rcases List.mem_cons.mp hrec with h1 | h1
      · subst h1
        rw [hsent] at hwp
        obtain ⟨w, hw, rfl⟩ := List.mem_map.mp hwp
        rw [hsnap]
      · rcases hcase with ⟨hnone, htail⟩ | ⟨p2, happ, htail⟩
        · rw [htail] at h1
          simp at h1
        · rw [htail] at h1
          exact (ih (epoch + 1) p2).2 rec h1 wp hwp

/-- C4 witness: a one-worker run over two rounds — round 1's snapshot is
the model state round 0's aggregation applied. -/
theorem rounds_sequential_snapshot_witness :
    ((training_handler_rounds ["a"] (fun _ _ p => ((0 : ℚ), p)) 2 0 [[1]])[0]? =
        some ⟨[[1]], [("a", [[1]])], [("a", ((0 : ℚ), [[1]]))], some [[1]]⟩ ∧
      (training_handler_rounds ["a"] (fun _ _ p => ((0 : ℚ), p)) 2 0 [[1]])[1]? =
        some ⟨[[1]], [("a", [[1]])], [("a", ((0 : ℚ), [[1]]))], some [[1]]⟩) ∧
    (⟨[[1]], [("a", [[1]])], [("a", ((0 : ℚ), [[1]]))], some [[1]]⟩ : RoundTrace).applied =
      some (⟨[[1]], [("a", [[1]])], [("a", ((0 : ℚ), [[1]]))], some [[1]]⟩ : RoundTrace).snapshot := by
  have havg : average_model_parameters
      (buildUpdParams (["a"].map (fun w => (w, (fun _ _ p => ((0 : ℚ), p)) 0 w [[1]])))) =
      .ok [[1]] := by
    norm_num [average_model_parameters, buildUpdParams, dictInsert, hasKey, sumParams]
  have havg1 : average_model_parameters
      (buildUpdParams (["a"].map (fun w => (w, (0 : ℚ), set_model_params [[1]] [[1]])))) =
      .ok [[1]] := by
    norm_num [average_model_parameters, buildUpdParams, dictInsert, hasKey, sumParams,
      set_model_params]
  have h0 : (training_handler_rounds ["a"] (fun _ _ p => ((0 : ℚ), p)) 2 0 [[1]])[0]? =
      some ⟨[[1]], [("a", [[1]])], [("a", ((0 : ℚ), [[1]]))], some [[1]]⟩ := by
    rw [training_handler_rounds, havg]
    rfl
  have h1 : (training_handler_rounds ["a"] (fun _ _ p => ((0 : ℚ), p)) 2 0 [[1]])[1]? =
      some ⟨[[1]], [("a", [[1]])], [("a", ((0 : ℚ), [[1]]))], some [[1]]⟩ := by
    rw [training_handler_rounds, havg]
    show (training_handler_rounds ["a"] (fun _ _ p => ((0 : ℚ), p)) 1 1
        (set_model_params [[1]] [[1]]))[0]? = _
    rw [training_handler_rounds, havg1]
    rfl
  exact ⟨⟨h0, h1⟩,
    (rounds_sequential_snapshot ["a"] (fun _ _ p => ((0 : ℚ), p)) 2 0 [[1]]).1 0
      ⟨[[1]], [("a", [[1]])], [("a", ((0 : ℚ), [[1]]))], some [[1]]⟩
      ⟨[[1]], [("a", [[1]])], [("a", ((0 : ℚ), [[1]]))], some [[1]]⟩ h0 h1⟩

end FedServer
